import Mathlib

/-!
# Verification of the DPLL SAT solver (`src/main.py`)

Shallow embedding of the repository's single source file: the `Literal` data
model, the knowledge-base utilities (`get_lits`, `substitute`, `pure`, `unit`,
`degree`), the recursive search engine `_dpll` and the driver
`dpll_satisfiable`, together with proofs of the specification's testable
properties (soundness, completeness on unsat, heuristic invariance, the
clamping behaviour of out-of-range heuristic levels, termination/depth bounds
and the concrete example scenarios).

Python sets are modelled as `Finset`, Python's ordered `dict` as an
association list built by insertion (`dictInsert`/`pyUpdate`), Python `int`
as `Int`, and the mutable `stuff` context threaded through the recursion as
an explicitly passed `Stuff` record.
-/

namespace DPLL

/-- The `Literal` dataclass: a named boolean variable with a polarity.
`@dataclass(order=True, frozen=True)` with fields `name : str`, `sign : bool`. -/
structure Literal where
  name : String
  sign : Bool := true
deriving DecidableEq

/-- `Literal.__neg__`: the negated literal of the same name. -/
def Literal.neg (l : Literal) : Literal := ⟨l.name, !l.sign⟩

/-- After `substitute` a clause holds a mix of literals and raw booleans, as
in the Python code where a set may contain `Literal` values and `True`/`False`. -/
inductive Entry where
  | lit (l : Literal)
  | bval (b : Bool)
deriving DecidableEq

/-- Python truthiness of a clause element: a `Literal` object is truthy,
a boolean is its own truth value (used by `if lit` in the housekeeping step). -/
def Entry.truthy : Entry → Bool
  | .lit _ => true
  | .bval b => b

/-- Whether a clause element is a `Literal` (as opposed to a raw boolean). -/
def Entry.isLit : Entry → Bool
  | .lit _ => true
  | .bval _ => false

/-- Extract the literal from an element known to be a literal.  The boolean
case never arises where this is used (housekeeping only applies it to
clauses from which all booleans have been removed). -/
def Entry.getLit : Entry → Literal
  | .lit l => l
  | .bval _ => ⟨"", true⟩

/-- A clause after housekeeping: a set of literals. -/
abbrev Clause := Finset Literal

/-- A clause in general: a set of literals and/or raw booleans. -/
abbrev EClause := Finset Entry

/-- A knowledge base as seen by the recursive engine: a list of clauses whose
elements may be literals or booleans (the result of `substitute`). -/
abbrev KB := List EClause

/-- A boolean-free knowledge base (the input type of `dpll_satisfiable`, and
the result type of the housekeeping step). -/
abbrev LKB := List Clause

/-- Lexicographic (code-point) comparison of character lists, mirroring
Python's `str` ordering used by `sorted` on `Literal` values. -/
def strLtList : List Char → List Char → Bool
  | _, [] => false
  | [], _ :: _ => true
  | x :: xs, y :: ys => if x < y then true else if y < x then false else strLtList xs ys

/-- Python's string ordering: lexicographic by code point. -/
def strLt (a b : String) : Bool := strLtList a.toList b.toList

/-- The total order on `Literal` generated by `@dataclass(order=True)`:
lexicographic on the `(name, sign)` tuple, with `False < True` on booleans. -/
def litLE (a b : Literal) : Prop :=
  strLt a.name b.name = true ∨ (a.name = b.name ∧ a.sign ≤ b.sign)

instance : DecidableRel litLE := fun a b => by
  unfold litLE; exact inferInstance

theorem strLtList_irrefl (a : List Char) : strLtList a a = false := by
  induction a with
  | nil => rfl
  | cons x xs ih => simp [strLtList, ih]

theorem strLtList_trans {a b c : List Char} (hab : strLtList a b = true)
    (hbc : strLtList b c = true) : strLtList a c = true := by
  induction a generalizing b c with
  | nil =>
    cases c with
    | nil => cases b with
      | nil => simpa using hab
      | cons y ys => simp [strLtList] at hbc
    | cons z zs => simp [strLtList]
  | cons x xs ih =>
    cases b with
    | nil => simp [strLtList] at hab
    | cons y ys =>
      cases c with
      | nil => simp [strLtList] at hbc
      | cons z zs =>
        simp only [strLtList] at hab hbc ⊢
        rcases lt_trichotomy x y with hxy | hxy | hxy
        · rcases lt_trichotomy y z with hyz | hyz | hyz
          · simp [lt_trans hxy hyz]
          · subst hyz; simp [hxy]
          · simp [hyz, lt_asymm hyz] at hbc
        · subst hxy
          rcases lt_trichotomy x z with hxz | hxz | hxz
          · simp [hxz]
          · subst hxz
            simp only [lt_irrefl, if_false] at hab hbc ⊢
            exact ih hab hbc
          · simp [hxz, lt_asymm hxz] at hbc
        · simp [hxy, lt_asymm hxy] at hab

theorem strLtList_eq_of_not {a b : List Char} (hab : strLtList a b = false)
    (hba : strLtList b a = false) : a = b := by
  induction a generalizing b with
  | nil =>
    cases b with
    | nil => rfl
    | cons y ys => simp [strLtList] at hab
  | cons x xs ih =>
    cases b with
    | nil => simp [strLtList] at hba
    | cons y ys =>
      simp only [strLtList] at hab hba
      rcases lt_trichotomy x y with hxy | hxy | hxy
      · simp [hxy] at hab
      · subst hxy
        simp only [lt_irrefl, if_false] at hab hba
        rw [ih hab hba]
      · simp [hxy] at hba

theorem string_toList_inj {a b : String} (h : a.toList = b.toList) : a = b := by
  cases a; cases b
  simp only [String.toList] at h
  exact congrArg String.mk h

theorem strLt_trans {a b c : String} (hab : strLt a b = true) (hbc : strLt b c = true) :
    strLt a c = true := strLtList_trans hab hbc

theorem strLt_irrefl (a : String) : strLt a a = false := strLtList_irrefl _

theorem strLt_eq_of_not {a b : String} (hab : strLt a b = false) (hba : strLt b a = false) :
    a = b := string_toList_inj (strLtList_eq_of_not hab hba)

theorem strLt_asymm {a b : String} (hab : strLt a b = true) : strLt b a = false := by
  by_contra h
  have hba : strLt b a = true := by
    cases hh : strLt b a
    · exact absurd hh h
    · rfl
  have := strLt_trans hab hba
  rw [strLt_irrefl] at this
  exact Bool.false_ne_true this

instance : IsTrans Literal litLE := by
  constructor
  intro a b c hab hbc
  rcases hab with hab | ⟨hab, hab2⟩
  · rcases hbc with hbc | ⟨hbc, _⟩
    · exact Or.inl (strLt_trans hab hbc)
    · exact Or.inl (hbc ▸ hab)
  · rcases hbc with hbc | ⟨hbc, hbc2⟩
    · exact Or.inl (hab ▸ hbc)
    · exact Or.inr ⟨hab.trans hbc, le_trans hab2 hbc2⟩

instance : IsAntisymm Literal litLE := by
  constructor
  intro a b hab hba
  rcases hab with hab | ⟨hab, hab2⟩
  · rcases hba with hba | ⟨hba, _⟩
    · have := strLt_asymm hab
      rw [this] at hba
      exact absurd hba Bool.false_ne_true
    · rw [hba] at hab
      rw [strLt_irrefl] at hab
      exact absurd hab Bool.false_ne_true
  · rcases hba with hba | ⟨hba, hba2⟩
    · rw [hab] at hba
      rw [strLt_irrefl] at hba
      exact absurd hba Bool.false_ne_true
    · cases a; cases b
      simp only at hab hab2 hba2
      simp [hab, le_antisymm hab2 hba2]

instance : IsTotal Literal litLE := by
  constructor
  intro a b
  cases hab : strLt a.name b.name
  · cases hba : strLt b.name a.name
    · have hn : a.name = b.name := strLt_eq_of_not hab hba
      rcases le_total a.sign b.sign with hs | hs
      · exact Or.inl (Or.inr ⟨hn, hs⟩)
      · exact Or.inr (Or.inr ⟨hn.symm, hs⟩)
    · exact Or.inr (Or.inl hba)
  · exact Or.inl (Or.inl hab)

/-- The sorted enumeration of a finite set of literals, as produced by
Python's `sorted` on a set.  (Insertion sort is used because it computes by
structural recursion; on a set with a total order it produces the same list
as any other sorting algorithm, by uniqueness of the sorted enumeration.) -/
def sortedLits (s : Finset Literal) : List Literal :=
  Quot.liftOn s.val (fun xs => xs.insertionSort litLE) (fun xs ys h =>
    List.eq_of_perm_of_sorted
      (((List.perm_insertionSort litLE xs).trans h).trans
        (List.perm_insertionSort litLE ys).symm)
      (List.sorted_insertionSort litLE xs) (List.sorted_insertionSort litLE ys))

theorem mem_sortedLits {s : Finset Literal} {l : Literal} : l ∈ sortedLits s ↔ l ∈ s := by
  have key : ∀ (m : Multiset Literal),
      l ∈ Quot.liftOn m (fun xs => xs.insertionSort litLE) (fun xs ys h =>
        List.eq_of_perm_of_sorted
          (((List.perm_insertionSort litLE xs).trans h).trans
            (List.perm_insertionSort litLE ys).symm)
          (List.sorted_insertionSort litLE xs) (List.sorted_insertionSort litLE ys)) ↔
        l ∈ m := by
    intro m
    induction m using Quot.ind with
    | _ xs => exact (List.perm_insertionSort litLE xs).mem_iff
  exact key s.val

/-- `get_lits(kb)`: the union of all clauses — every literal appearing in the KB. -/
def get_lits (kb : LKB) : Finset Literal := kb.foldr (fun c acc => c ∪ acc) ∅

/-- `substitute(name, value, kb)`: a new KB in which every literal with the
given name is replaced by the boolean `literal.sign == value` and every other
literal is kept unchanged. -/
def substitute (name : String) (value : Bool) (kb : LKB) : KB :=
  kb.map (fun c =>
    c.image (fun x => if x.name ≠ name then Entry.lit x else Entry.bval (x.sign == value)))

/-- `one_of(s)`: one item of a set.  Python takes the first element of the
set's (implementation-defined) iteration order; we model that unspecified
choice deterministically by the first element in sorted order. -/
def one_of (s : Finset Literal) : Literal := (sortedLits s).headD ⟨"", true⟩

/-- `pure(lit, kb)`: whether `lit` is a pure symbol (occurs while its negation
does not occur) in the KB. -/
def pure (l : Literal) (kb : LKB) : Bool :=
  decide (l ∈ get_lits kb) && decide (l.neg ∉ get_lits kb)

/-- `unit(lit, kb)`: whether `{lit}` is a (unit) clause of the KB. -/
def unit (l : Literal) (kb : LKB) : Bool := decide (({l} : Clause) ∈ kb)

/-- `degree(lit, kb)`: the number of clauses containing `lit` or `-lit`. -/
def degree (l : Literal) (kb : LKB) : Nat :=
  kb.countP (fun c => decide (l ∈ c) || decide (l.neg ∈ c))

/-- The inner comprehension of the housekeeping step:
`{lit for lit in clause if lit}` keeps the truthy elements; the extraction to
`Literal` is sound because housekeeping only applies this to clauses that do
not contain `True`, so the surviving elements are exactly the literals. -/
def housekeepClause (c : EClause) : Clause :=
  (c.filter (fun e => e.truthy = true)).image Entry.getLit

/-- The housekeeping step of `_dpll`:
`[{lit for lit in clause if lit} for clause in kb if True not in clause]`. -/
def housekeep (kb : KB) : LKB :=
  (kb.filter (fun c => decide (Entry.bval true ∉ c))).map housekeepClause

/-- The free-simplification candidate list (heuristic level ≥ 2): all pure or
unit literals sorted alphabetically, re-sorted stably by descending degree
when the heuristic level is exactly 3. -/
def candidates (h : Int) (kb : LKB) : List Literal :=
  let base := sortedLits ((get_lits kb).filter (fun x => (pure x kb || unit x kb) = true))
  if h = 3 then base.insertionSort (fun a b => degree b kb ≤ degree a kb) else base

/-- The branching literal: at heuristic level ≥ 1 the first element of the
alphabetically sorted literal list stably re-sorted by descending degree
(`sorted(sorted(get_lits(kb)), key=degree, reverse=True)[0]`); otherwise an
arbitrary literal (`one_of`). -/
def branchLit (h : Int) (kb : LKB) : Literal :=
  if 1 ≤ h then
    ((sortedLits (get_lits kb)).insertionSort (fun a b => degree b kb ≤ degree a kb)).headD
      ⟨"", true⟩
  else one_of (get_lits kb)

/-- A Python `dict` with keys of type `κ`, as an insertion-ordered association
list with at most one entry per key. -/
abbrev PyDict (κ β : Type) := List (κ × β)

/-- `d[k] = v` on a Python dict: update in place if the key is present
(keeping its position), otherwise append. -/
def dictInsert {κ β : Type} [DecidableEq κ] (m : PyDict κ β) (k : κ) (v : β) : PyDict κ β :=
  if m.any (fun p => decide (p.1 = k)) then
    m.map (fun p => if p.1 = k then (k, v) else p)
  else m ++ [(k, v)]

/-- `d1.update(d2)` on Python dicts: insert every pair of `d2`, in order. -/
def pyUpdate {κ β : Type} [DecidableEq κ] (m1 m2 : PyDict κ β) : PyDict κ β :=
  m2.foldl (fun acc p => dictInsert acc p.1 p.2) m1

/-- Dict lookup (first — and only, since keys are unique — matching entry). -/
def lookup {κ β : Type} [DecidableEq κ] (m : PyDict κ β) (k : κ) : Option β :=
  (m.find? (fun p => decide (p.1 = k))).map (fun p => p.2)

/-- The partial model built along one search branch: variable name ↦ value. -/
abbrev Model := PyDict String Bool

/-- The `stuff` context dict threaded through `_dpll`: the winning-model
accumulator, the decision trace, and the heuristic level. -/
structure Stuff where
  model : Model
  trace : List Literal
  h_lvl : Int
deriving DecidableEq

theorem get_lits_cons (c : Clause) (cs : LKB) : get_lits (c :: cs) = c ∪ get_lits cs := rfl

theorem mem_get_lits {l : Literal} {kb : LKB} : l ∈ get_lits kb ↔ ∃ c ∈ kb, l ∈ c := by
  induction kb with
  | nil => simp [get_lits]
  | cons c cs ih => simp [get_lits_cons, Finset.mem_union, ih]

/-- The literal elements of a general clause. -/
def litsOfE (c : EClause) : Finset Literal :=
  (c.filter (fun e => e.isLit = true)).image Entry.getLit

/-- All literals appearing anywhere in a general KB. -/
def eLits (kb : KB) : Finset Literal := kb.foldr (fun c acc => litsOfE c ∪ acc) ∅

/-- The distinct variable names of a general KB: the termination measure of
`_dpll` (each decision level eliminates one variable). -/
def eVars (kb : KB) : Finset String := (eLits kb).image Literal.name

theorem mem_litsOfE {l : Literal} {c : EClause} : l ∈ litsOfE c ↔ Entry.lit l ∈ c := by
  constructor
  · intro h
    rcases Finset.mem_image.mp h with ⟨e, he, hel⟩
    rcases Finset.mem_filter.mp he with ⟨hec, hlit⟩
    cases e with
    | lit l2 =>
      simp only [Entry.getLit] at hel
      exact hel ▸ hec
    | bval b => simp [Entry.isLit] at hlit
  · intro h
    exact Finset.mem_image.mpr ⟨Entry.lit l, Finset.mem_filter.mpr ⟨h, rfl⟩, rfl⟩

theorem eLits_cons (c : EClause) (cs : KB) : eLits (c :: cs) = litsOfE c ∪ eLits cs := rfl

theorem mem_eLits {l : Literal} {kb : KB} : l ∈ eLits kb ↔ ∃ c ∈ kb, Entry.lit l ∈ c := by
  induction kb with
  | nil => simp [eLits]
  | cons c cs ih => simp [eLits_cons, Finset.mem_union, ih, mem_litsOfE]

theorem housekeepClause_eq {c : EClause} (h : Entry.bval true ∉ c) :
    housekeepClause c = litsOfE c := by
  unfold housekeepClause litsOfE
  congr 1
  apply Finset.filter_congr
  intro e he
  cases e with
  | lit l => simp [Entry.truthy, Entry.isLit]
  | bval b =>
    cases b with
    | false => simp [Entry.truthy, Entry.isLit]
    | true => exact absurd he h

theorem mem_housekeep {c2 : Clause} {kb : KB} :
    c2 ∈ housekeep kb ↔ ∃ c ∈ kb, Entry.bval true ∉ c ∧ housekeepClause c = c2 := by
  unfold housekeep
  simp only [List.mem_map, List.mem_filter, decide_eq_true_eq]
  constructor
  · rintro ⟨c, ⟨hc, hnb⟩, hcc⟩
    exact ⟨c, hc, hnb, hcc⟩
  · rintro ⟨c, hc, hnb, hcc⟩
    exact ⟨c, ⟨hc, hnb⟩, hcc⟩

theorem get_lits_housekeep_subset (kb : KB) : get_lits (housekeep kb) ⊆ eLits kb := by
  intro l hl
  rcases mem_get_lits.mp hl with ⟨c2, hc2, hlc⟩
  rcases mem_housekeep.mp hc2 with ⟨c, hc, hnb, hcc⟩
  rw [← hcc, housekeepClause_eq hnb] at hlc
  exact mem_eLits.mpr ⟨c, hc, mem_litsOfE.mp hlc⟩

theorem mem_eLits_substitute {l : Literal} {n : String} {v : Bool} {kb : LKB} :
    l ∈ eLits (substitute n v kb) ↔ l ∈ get_lits kb ∧ l.name ≠ n := by
  constructor
  · intro h
    rcases mem_eLits.mp h with ⟨c2, hc2, hl⟩
    rcases List.mem_map.mp hc2 with ⟨c, hc, hcc⟩
    rw [← hcc] at hl
    rcases Finset.mem_image.mp hl with ⟨x, hx, hfx⟩
    by_cases hxn : x.name ≠ n
    · rw [if_pos hxn] at hfx
      simp only [Entry.lit.injEq] at hfx
      exact hfx ▸ ⟨mem_get_lits.mpr ⟨c, hc, hx⟩, hxn⟩
    · rw [if_neg hxn] at hfx
      simp at hfx
  · rintro ⟨hl, hn⟩
    rcases mem_get_lits.mp hl with ⟨c, hc, hx⟩
    refine mem_eLits.mpr ⟨_, List.mem_map_of_mem _ hc, ?_⟩
    exact Finset.mem_image.mpr ⟨l, hx, by rw [if_pos hn]⟩

theorem eVars_substitute_subset {n : String} {v : Bool} {kb : LKB} :
    eVars (substitute n v kb) ⊆ ((get_lits kb).image Literal.name).erase n := by
  intro s hs
  rcases Finset.mem_image.mp hs with ⟨l, hl, hln⟩
  rcases mem_eLits_substitute.mp hl with ⟨hl2, hn⟩
  exact Finset.mem_erase.mpr ⟨hln ▸ hn, hln ▸ Finset.mem_image_of_mem _ hl2⟩

theorem measure_lt {kb : KB} {l : Literal} (hl : l ∈ get_lits (housekeep kb)) (v : Bool) :
    (eVars (substitute l.name v (housekeep kb))).card < (eVars kb).card := by
  have h2 : (get_lits (housekeep kb)).image Literal.name ⊆ eVars kb :=
    Finset.image_subset_image (get_lits_housekeep_subset kb)
  have h3 : l.name ∈ (get_lits (housekeep kb)).image Literal.name :=
    Finset.mem_image_of_mem _ hl
  calc (eVars (substitute l.name v (housekeep kb))).card
      ≤ (((get_lits (housekeep kb)).image Literal.name).erase l.name).card :=
        Finset.card_le_card eVars_substitute_subset
    _ < ((get_lits (housekeep kb)).image Literal.name).card :=
        Finset.card_erase_lt_of_mem h3
    _ ≤ (eVars kb).card := Finset.card_le_card h2

theorem headD_mem {α : Type} {l : List α} (h : l ≠ []) (d : α) : l.headD d ∈ l := by
  cases l with
  | nil => exact absurd rfl h
  | cons x xs => simp [List.headD]

theorem mem_candidates {l : Literal} {h : Int} {kb : LKB} (hl : l ∈ candidates h kb) :
    l ∈ get_lits kb ∧ (pure l kb || unit l kb) = true := by
  simp only [candidates] at hl
  have hbase : l ∈ sortedLits ((get_lits kb).filter (fun x => (pure x kb || unit x kb) = true)) := by
    by_cases h3 : h = 3
    · rw [if_pos h3] at hl
      exact (List.perm_insertionSort _ _).mem_iff.mp hl
    · rwa [if_neg h3] at hl
  have := mem_sortedLits.mp hbase
  exact Finset.mem_filter.mp this

/-- `sub = candidates[0]`: the first free-simplification candidate. -/
def freeSub (h : Int) (kb : LKB) : Literal := (candidates h kb).headD ⟨"", true⟩

theorem freeSub_mem {h : Int} {kb : LKB} (hne : candidates h kb ≠ []) :
    freeSub h kb ∈ get_lits kb :=
  (mem_candidates (headD_mem hne _)).1

theorem freeSub_pure_or_unit {h : Int} {kb : LKB} (hne : candidates h kb ≠ []) :
    (pure (freeSub h kb) kb || unit (freeSub h kb) kb) = true :=
  (mem_candidates (headD_mem hne _)).2

theorem get_lits_nonempty {kb : LKB} (hne : kb ≠ [])
    (hcl : ¬ kb.any (fun c => decide (c = ∅)) = true) : (get_lits kb).Nonempty := by
  have hcl2 : ∅ ∉ kb := by simpa using hcl
  cases kb with
  | nil => exact absurd rfl hne
  | cons c cs =>
    have hc : c ≠ ∅ := fun h => hcl2 (h ▸ List.mem_cons_self c cs)
    rcases Finset.nonempty_iff_ne_empty.mpr hc with ⟨x, hx⟩
    exact ⟨x, mem_get_lits.mpr ⟨c, List.mem_cons_self c cs, hx⟩⟩

theorem branchLit_mem {h : Int} {kb : LKB} (hne : (get_lits kb).Nonempty) :
    branchLit h kb ∈ get_lits kb := by
  rcases hne with ⟨x, hx⟩
  have hsort : sortedLits (get_lits kb) ≠ [] :=
    List.ne_nil_of_mem (mem_sortedLits.mpr hx)
  unfold branchLit one_of
  by_cases h1 : 1 ≤ h
  · rw [if_pos h1]
    have hperm := List.perm_insertionSort (fun a b => degree b kb ≤ degree a kb)
      (sortedLits (get_lits kb))
    have hms : (sortedLits (get_lits kb)).insertionSort
        (fun a b => degree b kb ≤ degree a kb) ≠ [] := by
      intro hnil
      rw [hnil] at hperm
      exact hsort hperm.symm.eq_nil
    exact mem_sortedLits.mp (hperm.mem_iff.mp (headD_mem hms _))
  · rw [if_neg h1]
    exact mem_sortedLits.mp (headD_mem hsort _)

/-- Fuel-indexed form of the `_dpll` recursion, used both to prove the
recursion-depth bound and as the induction vehicle for the behavioural
theorems.  `none` means the fuel ran out before the search finished. -/
def dpllFuel : Nat → KB → Model → Stuff → Option (Bool × Stuff)
  | 0, _, _, _ => none
  | n + 1, kb, model, st =>
    if _h1 : housekeep kb = [] then
      some (true, { st with model := pyUpdate st.model model })
    else if _h2 : (housekeep kb).any (fun c => decide (c = ∅)) then
      some (false, st)
    else if _h3 : 2 ≤ st.h_lvl ∧ candidates st.h_lvl (housekeep kb) ≠ [] then
      dpllFuel n
        (substitute (freeSub st.h_lvl (housekeep kb)).name
          (freeSub st.h_lvl (housekeep kb)).sign (housekeep kb))
        (dictInsert model (freeSub st.h_lvl (housekeep kb)).name
          (freeSub st.h_lvl (housekeep kb)).sign)
        { st with trace := st.trace ++ [freeSub st.h_lvl (housekeep kb)] }
    else
      match dpllFuel n
          (substitute (branchLit st.h_lvl (housekeep kb)).name true (housekeep kb))
          (dictInsert model (branchLit st.h_lvl (housekeep kb)).name true)
          { st with trace := st.trace ++ [branchLit st.h_lvl (housekeep kb)] } with
      | none => none
      | some (true, st2) => some (true, st2)
      | some (false, st2) =>
        dpllFuel n
          (substitute (branchLit st.h_lvl (housekeep kb)).name false (housekeep kb))
          (dictInsert model (branchLit st.h_lvl (housekeep kb)).name false) st2

/-- `_dpll(kb, model, stuff)`: the recursive DPLL search.  Housekeeping drops
clauses containing `True` and strips falsy elements; an empty KB is success
(the accumulated model is committed to the context), an empty clause is
failure; at heuristic level ≥ 2 a pure/unit candidate is substituted without
branching; otherwise the branch literal is tried `True` first, then `False`. -/
def _dpll (kb : KB) (model : Model) (st : Stuff) : Bool × Stuff :=
  if h1 : housekeep kb = [] then
    (true, { st with model := pyUpdate st.model model })
  else if h2 : (housekeep kb).any (fun c => decide (c = ∅)) then
    (false, st)
  else if h3 : 2 ≤ st.h_lvl ∧ candidates st.h_lvl (housekeep kb) ≠ [] then
    _dpll
      (substitute (freeSub st.h_lvl (housekeep kb)).name
        (freeSub st.h_lvl (housekeep kb)).sign (housekeep kb))
      (dictInsert model (freeSub st.h_lvl (housekeep kb)).name
        (freeSub st.h_lvl (housekeep kb)).sign)
      { st with trace := st.trace ++ [freeSub st.h_lvl (housekeep kb)] }
  else
    match _dpll
        (substitute (branchLit st.h_lvl (housekeep kb)).name true (housekeep kb))
        (dictInsert model (branchLit st.h_lvl (housekeep kb)).name true)
        { st with trace := st.trace ++ [branchLit st.h_lvl (housekeep kb)] } with
    | (true, st2) => (true, st2)
    | (false, st2) =>
      _dpll
        (substitute (branchLit st.h_lvl (housekeep kb)).name false (housekeep kb))
        (dictInsert model (branchLit st.h_lvl (housekeep kb)).name false) st2
termination_by (eVars kb).card
decreasing_by
  · exact measure_lt (freeSub_mem h3.2) _
  · exact measure_lt (branchLit_mem (get_lits_nonempty h1 h2)) _
  · exact measure_lt (branchLit_mem (get_lits_nonempty h1 h2)) _

/-- The injection of a boolean-free KB (the declared input type of
`dpll_satisfiable`) into the general KB type handled by `_dpll`. -/
def inject (kb : LKB) : KB := kb.map (fun c => c.image Entry.lit)

/-- The dict comprehension `{Literal(k): v for k, v in stf['model'].items()}`
of the driver: the winning model re-keyed by positive literals. -/
def modelOut (m : Model) : PyDict Literal Bool :=
  m.foldl (fun acc p => dictInsert acc ⟨p.1, true⟩ p.2) []

/-- `dpll_satisfiable(kb, heuristic_level)`: initializes the shared context
(empty model, empty trace, the heuristic level), runs `_dpll`, and returns
`(satisfiable, model keyed by positive literals, trace)`. -/
def dpll_satisfiable (kb : LKB) (heuristic_level : Int) :
    Bool × PyDict Literal Bool × List Literal :=
  let r := _dpll (inject kb) [] ⟨[], [], heuristic_level⟩
  (r.1, modelOut r.2.model, r.2.trace)

/-! ## Case-by-case unfolding of the recursion -/

theorem dpll_case_sat {kb : KB} {model : Model} {st : Stuff} (h1 : housekeep kb = []) :
    _dpll kb model st = (true, { st with model := pyUpdate st.model model }) := by
  rw [_dpll]; simp [h1]

theorem dpll_case_unsat {kb : KB} {model : Model} {st : Stuff} (h1 : ¬ housekeep kb = [])
    (h2 : (housekeep kb).any (fun c => decide (c = ∅)) = true) :
    _dpll kb model st = (false, st) := by
  rw [_dpll]; simp [h1, h2]

theorem dpll_case_free {kb : KB} {model : Model} {st : Stuff} (h1 : ¬ housekeep kb = [])
    (h2 : ¬ (housekeep kb).any (fun c => decide (c = ∅)) = true)
    (h3 : 2 ≤ st.h_lvl) (h4 : candidates st.h_lvl (housekeep kb) ≠ []) :
    _dpll kb model st =
      _dpll
        (substitute (freeSub st.h_lvl (housekeep kb)).name
          (freeSub st.h_lvl (housekeep kb)).sign (housekeep kb))
        (dictInsert model (freeSub st.h_lvl (housekeep kb)).name
          (freeSub st.h_lvl (housekeep kb)).sign)
        { st with trace := st.trace ++ [freeSub st.h_lvl (housekeep kb)] } := by
  rw [_dpll]; simp [h1, h2, h3, h4]

theorem dpll_case_branch {kb : KB} {model : Model} {st : Stuff} (h1 : ¬ housekeep kb = [])
    (h2 : ¬ (housekeep kb).any (fun c => decide (c = ∅)) = true)
    (h3 : ¬ (2 ≤ st.h_lvl ∧ candidates st.h_lvl (housekeep kb) ≠ [])) :
    _dpll kb model st =
      match _dpll
          (substitute (branchLit st.h_lvl (housekeep kb)).name true (housekeep kb))
          (dictInsert model (branchLit st.h_lvl (housekeep kb)).name true)
          { st with trace := st.trace ++ [branchLit st.h_lvl (housekeep kb)] } with
      | (true, st2) => (true, st2)
      | (false, st2) =>
        _dpll
          (substitute (branchLit st.h_lvl (housekeep kb)).name false (housekeep kb))
          (dictInsert model (branchLit st.h_lvl (housekeep kb)).name false) st2 := by
  rw [_dpll]; simp [h1, h2, h3]

theorem fuel_case_sat {n : Nat} {kb : KB} {model : Model} {st : Stuff}
    (h1 : housekeep kb = []) :
    dpllFuel (n + 1) kb model st = some (true, { st with model := pyUpdate st.model model }) := by
  simp [dpllFuel, h1]

theorem fuel_case_unsat {n : Nat} {kb : KB} {model : Model} {st : Stuff}
    (h1 : ¬ housekeep kb = [])
    (h2 : (housekeep kb).any (fun c => decide (c = ∅)) = true) :
    dpllFuel (n + 1) kb model st = some (false, st) := by
  simp [dpllFuel, h1, h2]

theorem fuel_case_free {n : Nat} {kb : KB} {model : Model} {st : Stuff}
    (h1 : ¬ housekeep kb = [])
    (h2 : ¬ (housekeep kb).any (fun c => decide (c = ∅)) = true)
    (h3 : 2 ≤ st.h_lvl) (h4 : candidates st.h_lvl (housekeep kb) ≠ []) :
    dpllFuel (n + 1) kb model st =
      dpllFuel n
        (substitute (freeSub st.h_lvl (housekeep kb)).name
          (freeSub st.h_lvl (housekeep kb)).sign (housekeep kb))
        (dictInsert model (freeSub st.h_lvl (housekeep kb)).name
          (freeSub st.h_lvl (housekeep kb)).sign)
        { st with trace := st.trace ++ [freeSub st.h_lvl (housekeep kb)] } := by
  simp [dpllFuel, h1, h2, h3, h4]

theorem fuel_case_branch {n : Nat} {kb : KB} {model : Model} {st : Stuff}
    (h1 : ¬ housekeep kb = [])
    (h2 : ¬ (housekeep kb).any (fun c => decide (c = ∅)) = true)
    (h3 : ¬ (2 ≤ st.h_lvl ∧ candidates st.h_lvl (housekeep kb) ≠ [])) :
    dpllFuel (n + 1) kb model st =
      match dpllFuel n
          (substitute (branchLit st.h_lvl (housekeep kb)).name true (housekeep kb))
          (dictInsert model (branchLit st.h_lvl (housekeep kb)).name true)
          { st with trace := st.trace ++ [branchLit st.h_lvl (housekeep kb)] } with
      | none => none
      | some (true, st2) => some (true, st2)
      | some (false, st2) =>
        dpllFuel n
          (substitute (branchLit st.h_lvl (housekeep kb)).name false (housekeep kb))
          (dictInsert model (branchLit st.h_lvl (housekeep kb)).name false) st2 := by
  simp [dpllFuel, h1, h2, h3]

/-- With fuel exceeding the number of distinct variables, the fuel-indexed
recursion completes and agrees with `_dpll`: the recursion depth of the
search is bounded by the number of distinct variable names in the KB. -/
theorem dpllFuel_eq_dpll :
    ∀ (n : Nat) (kb : KB) (model : Model) (st : Stuff),
      (eVars kb).card < n → dpllFuel n kb model st = some (_dpll kb model st) := by
  intro n
  induction n with
  | zero => intro kb model st h; exact absurd h (Nat.not_lt_zero _)
  | succ n ih =>
    intro kb model st hcard
    have hcard2 : (eVars kb).card ≤ n := Nat.lt_succ_iff.mp hcard
    by_cases h1 : housekeep kb = []
    · rw [fuel_case_sat h1, dpll_case_sat h1]
    · by_cases h2 : (housekeep kb).any (fun c => decide (c = ∅)) = true
      · rw [fuel_case_unsat h1 h2, dpll_case_unsat h1 h2]
      · by_cases h3 : 2 ≤ st.h_lvl ∧ candidates st.h_lvl (housekeep kb) ≠ []
        · rw [fuel_case_free h1 h2 h3.1 h3.2, dpll_case_free h1 h2 h3.1 h3.2]
          exact ih _ _ _
            (lt_of_lt_of_le (measure_lt (freeSub_mem h3.2) _) hcard2)
        · rw [fuel_case_branch h1 h2 h3, dpll_case_branch h1 h2 h3]
          have hlt : ∀ v : Bool,
              (eVars (substitute (branchLit st.h_lvl (housekeep kb)).name v
                (housekeep kb))).card < n :=
            fun v => lt_of_lt_of_le
              (measure_lt (branchLit_mem (get_lits_nonempty h1 h2)) v) hcard2
          rw [ih _ _ _ (hlt true)]
          rcases hres : _dpll
              (substitute (branchLit st.h_lvl (housekeep kb)).name true (housekeep kb))
              (dictInsert model (branchLit st.h_lvl (housekeep kb)).name true)
              { st with trace := st.trace ++ [branchLit st.h_lvl (housekeep kb)] }
            with ⟨b, st2⟩
          cases b
          · exact ih _ _ _ (hlt false)
          · rfl

/-- The heuristic level stored in the context is never modified. -/
theorem fuel_h_lvl {n : Nat} :
    ∀ {kb : KB} {model : Model} {st : Stuff} {b : Bool} {st2 : Stuff},
      dpllFuel n kb model st = some (b, st2) → st2.h_lvl = st.h_lvl := by
  induction n with
  | zero => intro kb model st b st2 h; simp [dpllFuel] at h
  | succ n ih =>
    intro kb model st b st2 h
    by_cases h1 : housekeep kb = []
    · rw [fuel_case_sat h1] at h
      rcases Option.some.inj h with ⟨-, rfl⟩
      rfl
    · by_cases h2 : (housekeep kb).any (fun c => decide (c = ∅)) = true
      · rw [fuel_case_unsat h1 h2] at h
        rcases Option.some.inj h with ⟨-, rfl⟩
        rfl
      · by_cases h3 : 2 ≤ st.h_lvl ∧ candidates st.h_lvl (housekeep kb) ≠ []
        · rw [fuel_case_free h1 h2 h3.1 h3.2] at h
          have h5 := ih h
          exact h5
        · rw [fuel_case_branch h1 h2 h3] at h
          rcases hL : dpllFuel n
              (substitute (branchLit st.h_lvl (housekeep kb)).name true (housekeep kb))
              (dictInsert model (branchLit st.h_lvl (housekeep kb)).name true)
              { st with trace := st.trace ++ [branchLit st.h_lvl (housekeep kb)] }
            with _ | ⟨bL, stA⟩
          · rw [hL] at h
            simp at h
          · rw [hL] at h
            cases bL
            · have h5 := ih h
              have h6 := ih hL
              exact h5.trans h6
            · rcases Option.some.inj h with ⟨-, rfl⟩
              have h6 := ih hL
              exact h6

/-- The winning-model accumulator is written only on success: a failing call
returns the context's model unchanged. -/
theorem fuel_model_false {n : Nat} :
    ∀ {kb : KB} {model : Model} {st : Stuff} {st2 : Stuff},
      dpllFuel n kb model st = some (false, st2) → st2.model = st.model := by
  induction n with
  | zero => intro kb model st st2 h; simp [dpllFuel] at h
  | succ n ih =>
    intro kb model st st2 h
    by_cases h1 : housekeep kb = []
    · rw [fuel_case_sat h1] at h
      simp at h
    · by_cases h2 : (housekeep kb).any (fun c => decide (c = ∅)) = true
      · rw [fuel_case_unsat h1 h2] at h
        rcases Option.some.inj h with ⟨-, rfl⟩
        rfl
      · by_cases h3 : 2 ≤ st.h_lvl ∧ candidates st.h_lvl (housekeep kb) ≠ []
        · rw [fuel_case_free h1 h2 h3.1 h3.2] at h
          have h5 := ih h
          exact h5
        · rw [fuel_case_branch h1 h2 h3] at h
          rcases hL : dpllFuel n
              (substitute (branchLit st.h_lvl (housekeep kb)).name true (housekeep kb))
              (dictInsert model (branchLit st.h_lvl (housekeep kb)).name true)
              { st with trace := st.trace ++ [branchLit st.h_lvl (housekeep kb)] }
            with _ | ⟨bL, stA⟩
          · rw [hL] at h
            simp at h
          · rw [hL] at h
            cases bL
            · have h5 := ih h
              have h6 := ih hL
              exact h5.trans h6
            · simp at h

/-! ## Python-dict lemmas -/

theorem lookup_cons {κ β : Type} [DecidableEq κ] {p : κ × β} {ps : PyDict κ β} {k : κ} :
    lookup (p :: ps) k = if p.1 = k then some p.2 else lookup ps k := by
  by_cases h : p.1 = k <;> simp [lookup, List.find?_cons, h]

theorem dictInsert_of_not_mem {κ β : Type} [DecidableEq κ] {m : PyDict κ β} {k : κ}
    (h : k ∉ m.map Prod.fst) (v : β) : dictInsert m k v = m ++ [(k, v)] := by
  unfold dictInsert
  rw [if_neg]
  intro hany
  rcases List.any_eq_true.mp hany with ⟨p, hp, hpk⟩
  exact h (List.mem_map.mpr ⟨p, hp, decide_eq_true_eq.mp hpk⟩)

theorem lookup_append_left {κ β : Type} [DecidableEq κ] {m m2 : PyDict κ β} {k : κ} {v : β}
    (h : lookup m k = some v) : lookup (m ++ m2) k = some v := by
  induction m with
  | nil => simp [lookup] at h
  | cons p ps ih =>
    rw [List.cons_append, lookup_cons]
    rw [lookup_cons] at h
    by_cases hpk : p.1 = k
    · rwa [if_pos hpk] at h ⊢
    · rw [if_neg hpk] at h ⊢
      exact ih h

theorem lookup_append_self {κ β : Type} [DecidableEq κ] {m : PyDict κ β} {k : κ}
    (h : k ∉ m.map Prod.fst) (v : β) : lookup (m ++ [(k, v)]) k = some v := by
  induction m with
  | nil => simp [lookup, List.find?]
  | cons p ps ih =>
    simp only [List.map_cons, List.mem_cons] at h
    push_neg at h
    rw [List.cons_append, lookup_cons, if_neg (fun hh => h.1 hh.symm)]
    exact ih h.2

theorem keys_append_nodup {κ β : Type} [DecidableEq κ] {m : PyDict κ β} {k : κ}
    (hm : (m.map Prod.fst).Nodup) (h : k ∉ m.map Prod.fst) (v : β) :
    ((m ++ [(k, v)]).map Prod.fst).Nodup := by
  rw [List.map_append]
  rw [List.nodup_append]
  exact ⟨hm, List.nodup_singleton _, fun a ha hak => h (by simpa [List.mem_singleton.mp hak] using ha)⟩

theorem pyUpdate_eq_append {κ β : Type} [DecidableEq κ] :
    ∀ {m2 m1 : PyDict κ β}, (((m1 ++ m2).map Prod.fst).Nodup) → pyUpdate m1 m2 = m1 ++ m2 := by
  intro m2
  induction m2 with
  | nil => intro m1 h; simp [pyUpdate]
  | cons p ps ih =>
    intro m1 h
    have hmap : ((m1.map Prod.fst) ++ (p.1 :: ps.map Prod.fst)).Nodup := by
      simpa [List.map_append] using h
    rw [List.nodup_append] at hmap
    have hp1 : p.1 ∉ m1.map Prod.fst := fun hmem =>
      hmap.2.2 hmem (List.mem_cons_self _ _)
    have hstep : dictInsert m1 p.1 p.2 = m1 ++ [p] := by
      rw [dictInsert_of_not_mem hp1]
    have hrest : pyUpdate (m1 ++ [p]) ps = (m1 ++ [p]) ++ ps := by
      apply ih
      rw [List.append_assoc]
      simpa using h
    calc pyUpdate m1 (p :: ps) = pyUpdate (dictInsert m1 p.1 p.2) ps := rfl
      _ = pyUpdate (m1 ++ [p]) ps := by rw [hstep]
      _ = (m1 ++ [p]) ++ ps := hrest
      _ = m1 ++ (p :: ps) := by rw [List.append_assoc]; rfl

theorem modelOut_eq (m : Model) :
    modelOut m = pyUpdate [] (m.map (fun p => ((⟨p.1, true⟩ : Literal), p.2))) := by
  unfold modelOut pyUpdate
  rw [List.foldl_map]

theorem modelOut_of_nodup {m : Model} (h : (m.map Prod.fst).Nodup) :
    modelOut m = m.map (fun p => ((⟨p.1, true⟩ : Literal), p.2)) := by
  rw [modelOut_eq]
  apply pyUpdate_eq_append
  simp only [List.nil_append, List.map_map]
  have : (Prod.fst ∘ fun p : String × Bool => ((⟨p.1, true⟩ : Literal), p.2)) =
      (fun p : String × Bool => (⟨p.1, true⟩ : Literal)) := rfl
  rw [this]
  have hinj : ∀ a ∈ m.map Prod.fst, ∀ b ∈ m.map Prod.fst,
      (⟨a, true⟩ : Literal) = ⟨b, true⟩ → a = b := by
    intro a _ b _ hab
    simpa using hab
  have := List.Nodup.map_on (l := m.map Prod.fst)
    (f := fun k => (⟨k, true⟩ : Literal)) hinj h
  simpa [List.map_map, Function.comp] using this

theorem lookup_map_posLit (m : Model) (k : String) :
    lookup (m.map (fun p => ((⟨p.1, true⟩ : Literal), p.2))) ⟨k, true⟩ = lookup m k := by
  induction m with
  | nil => rfl
  | cons p ps ih =>
    rw [List.map_cons, lookup_cons, lookup_cons]
    by_cases h : p.1 = k
    · simp [h]
    · rw [if_neg (by simp [h]), if_neg h]
      exact ih

/-! ## Satisfaction -/

/-- Truth of a clause element under a valuation of the literals: a literal
element is true when the valuation holds of it, a raw boolean is its value. -/
def entryHolds (P : Literal → Prop) : Entry → Prop
  | .lit l => P l
  | .bval b => b = true

/-- A general KB is satisfied when every clause has a true element. -/
def satKB (P : Literal → Prop) (kb : KB) : Prop := ∀ c ∈ kb, ∃ e ∈ c, entryHolds P e

/-- A boolean-free KB is satisfied when every clause has a true literal. -/
def satLKB (P : Literal → Prop) (kb : LKB) : Prop := ∀ c ∈ kb, ∃ l ∈ c, P l

theorem housekeep_eq_nil {kb : KB} :
    housekeep kb = [] ↔ ∀ c ∈ kb, Entry.bval true ∈ c := by
  unfold housekeep
  rw [List.map_eq_nil_iff, List.filter_eq_nil_iff]
  constructor
  · intro h c hc
    have := h c hc
    simpa using this
  · intro h c hc
    simpa using h c hc

theorem satKB_of_housekeep_nil {kb : KB} (P : Literal → Prop) (h : housekeep kb = []) :
    satKB P kb := by
  intro c hc
  exact ⟨Entry.bval true, housekeep_eq_nil.mp h c hc, rfl⟩

theorem satKB_iff_housekeep {P : Literal → Prop} {kb : KB} :
    satKB P kb ↔ satLKB P (housekeep kb) := by
  constructor
  · intro h c2 hc2
    rcases mem_housekeep.mp hc2 with ⟨c, hc, hnb, hcc⟩
    rcases h c hc with ⟨e, he, hee⟩
    cases e with
    | bval b =>
      cases b with
      | true => exact absurd he hnb
      | false => simp [entryHolds] at hee
    | lit l =>
      refine ⟨l, ?_, hee⟩
      rw [← hcc, housekeepClause_eq hnb]
      exact mem_litsOfE.mpr he
  · intro h c hc
    by_cases hnb : Entry.bval true ∈ c
    · exact ⟨Entry.bval true, hnb, rfl⟩
    · have hc2 : housekeepClause c ∈ housekeep kb :=
        mem_housekeep.mpr ⟨c, hc, hnb, rfl⟩
      rcases h _ hc2 with ⟨l, hl, hPl⟩
      rw [housekeepClause_eq hnb] at hl
      exact ⟨Entry.lit l, mem_litsOfE.mp hl, hPl⟩

theorem satLKB_substitute_iff {P : Literal → Prop} {n : String} {v : Bool} {kb : LKB}
    (hP : ∀ l : Literal, l.name = n → (P l ↔ l.sign = v)) :
    satLKB P kb ↔ satKB P (substitute n v kb) := by
  constructor
  · intro h c2 hc2
    rcases List.mem_map.mp hc2 with ⟨c, hc, hcc⟩
    rcases h c hc with ⟨l, hl, hPl⟩
    rw [← hcc]
    by_cases hln : l.name ≠ n
    · refine ⟨Entry.lit l, ?_, hPl⟩
      exact Finset.mem_image.mpr ⟨l, hl, by rw [if_pos hln]⟩
    · push_neg at hln
      have hsv : l.sign = v := (hP l hln).mp hPl
      refine ⟨Entry.bval (l.sign == v), ?_, ?_⟩
      · exact Finset.mem_image.mpr ⟨l, hl, by rw [if_neg (by simpa using hln)]⟩
      · simpa [entryHolds] using hsv
  · intro h c hc
    have hc2 : (c.image (fun x =>
        if x.name ≠ n then Entry.lit x else Entry.bval (x.sign == v))) ∈ substitute n v kb :=
      List.mem_map_of_mem _ hc
    rcases h _ hc2 with ⟨e, he, hee⟩
    rcases Finset.mem_image.mp he with ⟨x, hx, hfx⟩
    by_cases hxn : x.name ≠ n
    · rw [if_pos hxn] at hfx
      rw [← hfx] at hee
      exact ⟨x, hx, hee⟩
    · push_neg at hxn
      rw [if_neg (by simpa using hxn)] at hfx
      rw [← hfx] at hee
      have : x.sign = v := by simpa [entryHolds] using hee
      exact ⟨x, hx, (hP x hxn).mpr this⟩

theorem satKB_inject_iff {P : Literal → Prop} {kb : LKB} :
    satKB P (inject kb) ↔ satLKB P kb := by
  constructor
  · intro h c hc
    have hc2 : c.image Entry.lit ∈ inject kb := List.mem_map_of_mem _ hc
    rcases h _ hc2 with ⟨e, he, hee⟩
    rcases Finset.mem_image.mp he with ⟨l, hl, hfl⟩
    rw [← hfl] at hee
    exact ⟨l, hl, hee⟩
  · intro h c2 hc2
    rcases List.mem_map.mp hc2 with ⟨c, hc, hcc⟩
    rcases h c hc with ⟨l, hl, hPl⟩
    exact ⟨Entry.lit l, hcc ▸ Finset.mem_image_of_mem _ hl, hPl⟩

theorem pure_iff {l : Literal} {kb : LKB} :
    pure l kb = true ↔ l ∈ get_lits kb ∧ l.neg ∉ get_lits kb := by
  simp [DPLL.pure]

theorem unit_iff {l : Literal} {kb : LKB} : unit l kb = true ↔ ({l} : Clause) ∈ kb := by
  simp [unit]

theorem name_eq_cases {l s : Literal} (h : l.name = s.name) : l = s ∨ l = s.neg := by
  rcases l with ⟨ln, ls⟩
  rcases s with ⟨sn, ss⟩
  simp only at h
  subst h
  cases ls <;> cases ss <;> simp [Literal.neg]

theorem unit_forces {l : Literal} {kb : LKB} (hu : unit l kb = true) {f : String → Bool}
    (hf : satLKB (fun x => f x.name = x.sign) kb) : f l.name = l.sign := by
  rcases hf _ (unit_iff.mp hu) with ⟨x, hx, hfx⟩
  rw [Finset.mem_singleton.mp hx] at hfx
  exact hfx

theorem pure_reassign {l : Literal} {kb : LKB} (hp : pure l kb = true) {f : String → Bool}
    (hf : satLKB (fun x => f x.name = x.sign) kb) :
    satLKB (fun x => (if x.name = l.name then l.sign else f x.name) = x.sign) kb := by
  intro c hc
  rcases hf c hc with ⟨x, hx, hfx⟩
  by_cases hxn : x.name = l.name
  · rcases name_eq_cases hxn with hxl | hxl
    · subst hxl
      refine ⟨x, hx, ?_⟩
      show (if x.name = x.name then x.sign else f x.name) = x.sign
      rw [if_pos rfl]
    · exfalso
      have : l.neg ∈ get_lits kb := mem_get_lits.mpr ⟨c, hc, hxl ▸ hx⟩
      exact (pure_iff.mp hp).2 this
  · refine ⟨x, hx, ?_⟩
    show (if x.name = l.name then l.sign else f x.name) = x.sign
    rw [if_neg hxn]
    exact hfx

/-! ## Completeness on unsatisfiable branches -/

/-- If the search returns `False`, no assignment satisfies the KB it was
given: every simplification step of `_dpll` preserves satisfiability. -/
theorem fuel_unsat {n : Nat} :
    ∀ {kb : KB} {model : Model} {st st2 : Stuff},
      dpllFuel n kb model st = some (false, st2) →
      ∀ f : String → Bool, ¬ satKB (fun l => f l.name = l.sign) kb := by
  induction n with
  | zero => intro kb model st st2 h; simp [dpllFuel] at h
  | succ n ih =>
    intro kb model st st2 h f hsat
    by_cases h1 : housekeep kb = []
    · rw [fuel_case_sat h1] at h
      simp at h
    · by_cases h2 : (housekeep kb).any (fun c => decide (c = ∅)) = true
      · rcases List.any_eq_true.mp h2 with ⟨c, hc, hce⟩
        have hce2 : c = ∅ := decide_eq_true_eq.mp hce
        have hsatL := satKB_iff_housekeep.mp hsat
        rcases hsatL c hc with ⟨l, hl, -⟩
        rw [hce2] at hl
        exact absurd hl (Finset.not_mem_empty l)
      · have hsatL := satKB_iff_housekeep.mp hsat
        by_cases h3 : 2 ≤ st.h_lvl ∧ candidates st.h_lvl (housekeep kb) ≠ []
        · rw [fuel_case_free h1 h2 h3.1 h3.2] at h
          have hpu := freeSub_pure_or_unit h3.2
          rw [Bool.or_eq_true] at hpu
          rcases hpu with hpure | hunit
          · have hf2sat := pure_reassign hpure hsatL
            have hf2n : ∀ l : Literal, l.name = (freeSub st.h_lvl (housekeep kb)).name →
                ((fun x => (if x.name = (freeSub st.h_lvl (housekeep kb)).name
                    then (freeSub st.h_lvl (housekeep kb)).sign else f x.name) = x.sign) l ↔
                  l.sign = (freeSub st.h_lvl (housekeep kb)).sign) := by
              intro l hl
              show (if l.name = (freeSub st.h_lvl (housekeep kb)).name
                  then (freeSub st.h_lvl (housekeep kb)).sign else f l.name) = l.sign ↔
                l.sign = (freeSub st.h_lvl (housekeep kb)).sign
              rw [if_pos hl]
              exact eq_comm
            have hsub2 := (satLKB_substitute_iff hf2n).mp hf2sat
            have hcontra := ih h (fun k => if k = (freeSub st.h_lvl (housekeep kb)).name
              then (freeSub st.h_lvl (housekeep kb)).sign else f k)
            exact hcontra hsub2
          · have hforced := unit_forces hunit hsatL
            have hfn : ∀ l : Literal, l.name = (freeSub st.h_lvl (housekeep kb)).name →
                ((fun x => f x.name = x.sign) l ↔
                  l.sign = (freeSub st.h_lvl (housekeep kb)).sign) := by
              intro l hl
              show f l.name = l.sign ↔ l.sign = (freeSub st.h_lvl (housekeep kb)).sign
              rw [hl, hforced]
              exact eq_comm
            have hcontra := ih h f
            exact hcontra ((satLKB_substitute_iff hfn).mp hsatL)
        · rw [fuel_case_branch h1 h2 h3] at h
          have hfn : ∀ l : Literal, l.name = (branchLit st.h_lvl (housekeep kb)).name →
              ((fun x => f x.name = x.sign) l ↔
                l.sign = f (branchLit st.h_lvl (housekeep kb)).name) := by
            intro l hl
            show f l.name = l.sign ↔ l.sign = f (branchLit st.h_lvl (housekeep kb)).name
            rw [hl]
            exact eq_comm
          have hsubst := (satLKB_substitute_iff hfn).mp hsatL
          rcases hL : dpllFuel n
              (substitute (branchLit st.h_lvl (housekeep kb)).name true (housekeep kb))
              (dictInsert model (branchLit st.h_lvl (housekeep kb)).name true)
              { st with trace := st.trace ++ [branchLit st.h_lvl (housekeep kb)] }
            with _ | ⟨bL, stA⟩
          · rw [hL] at h
            simp at h
          · rw [hL] at h
            cases bL
            · have h5 : dpllFuel n
                  (substitute (branchLit st.h_lvl (housekeep kb)).name false (housekeep kb))
                  (dictInsert model (branchLit st.h_lvl (housekeep kb)).name false) stA =
                    some (false, st2) := h
              cases hv : f (branchLit st.h_lvl (housekeep kb)).name
              · rw [hv] at hsubst
                exact ih h5 f hsubst
              · rw [hv] at hsubst
                exact ih hL f hsubst
            · simp at h

/-! ## Soundness of a satisfying result -/

theorem branch_step {kb : KB} {model : Model} {l : Literal}
    (hmem : l ∈ get_lits (housekeep kb))
    (hdisj : ∀ k ∈ model.map Prod.fst, k ∉ eVars kb)
    (hnodup : (model.map Prod.fst).Nodup) (v : Bool) :
    (∀ k ∈ (dictInsert model l.name v).map Prod.fst,
        k ∉ eVars (substitute l.name v (housekeep kb))) ∧
    ((dictInsert model l.name v).map Prod.fst).Nodup ∧
    lookup (dictInsert model l.name v) l.name = some v ∧
    (∀ k v2, lookup model k = some v2 → lookup (dictInsert model l.name v) k = some v2) := by
  have hname : l.name ∈ eVars kb :=
    Finset.mem_image_of_mem _ (get_lits_housekeep_subset kb hmem)
  have hfresh : l.name ∉ model.map Prod.fst := fun hk => hdisj _ hk hname
  have hins := dictInsert_of_not_mem hfresh v
  refine ⟨?_, ?_, ?_, ?_⟩
  · intro k hk hkmem
    have hk2 := eVars_substitute_subset hkmem
    rcases Finset.mem_erase.mp hk2 with ⟨hkne, hkin⟩
    rw [hins, List.map_append] at hk
    rcases List.mem_append.mp hk with hk | hk
    · exact hdisj k hk (Finset.image_subset_image (get_lits_housekeep_subset kb) hkin)
    · simp at hk
      exact hkne hk
  · rw [hins]
    exact keys_append_nodup hnodup hfresh v
  · rw [hins]
    exact lookup_append_self hfresh v
  · intro k v2 hv
    rw [hins]
    exact lookup_append_left hv

theorem sat_unwind {kb : KB} {m : Model} {l : Literal} {v : Bool}
    (hlook : lookup m l.name = some v)
    (hsat : satKB (fun x => lookup m x.name = some x.sign) (substitute l.name v (housekeep kb))) :
    satKB (fun x => lookup m x.name = some x.sign) kb := by
  have hP : ∀ x : Literal, x.name = l.name →
      ((fun y => lookup m y.name = some y.sign) x ↔ x.sign = v) := by
    intro x hx
    constructor
    · intro hh
      have hh2 : lookup m x.name = some x.sign := hh
      rw [hx, hlook] at hh2
      exact (Option.some.inj hh2).symm
    · intro hh
      show lookup m x.name = some x.sign
      rw [hx, hlook, hh]
  exact satKB_iff_housekeep.mpr ((satLKB_substitute_iff hP).mpr hsat)

/-- If the search returns `True`, then some model extending the partial model
of the call satisfies the KB the call was given, and it is exactly what gets
committed into the context's model accumulator. -/
theorem fuel_sound {n : Nat} :
    ∀ {kb : KB} {model : Model} {st st2 : Stuff},
      dpllFuel n kb model st = some (true, st2) →
      (∀ k ∈ model.map Prod.fst, k ∉ eVars kb) →
      (model.map Prod.fst).Nodup →
      ∃ m : Model, (m.map Prod.fst).Nodup ∧
        (∀ k v, lookup model k = some v → lookup m k = some v) ∧
        satKB (fun l => lookup m l.name = some l.sign) kb ∧
        st2.model = pyUpdate st.model m := by
  induction n with
  | zero => intro kb model st st2 h _ _; simp [dpllFuel] at h
  | succ n ih =>
    intro kb model st st2 h hdisj hnodup
    by_cases h1 : housekeep kb = []
    · rw [fuel_case_sat h1] at h
      injection h with h4
      injection h4 with h5 h6
      refine ⟨model, hnodup, fun k v hv => hv, satKB_of_housekeep_nil _ h1, ?_⟩
      rw [← h6]
    · by_cases h2 : (housekeep kb).any (fun c => decide (c = ∅)) = true
      · rw [fuel_case_unsat h1 h2] at h
        simp at h
      · by_cases h3 : 2 ≤ st.h_lvl ∧ candidates st.h_lvl (housekeep kb) ≠ []
        · rw [fuel_case_free h1 h2 h3.1 h3.2] at h
          rcases branch_step (freeSub_mem h3.2) hdisj hnodup
              (freeSub st.h_lvl (housekeep kb)).sign with ⟨hdisj2, hnodup2, hlook2, hext2⟩
          rcases ih h hdisj2 hnodup2 with ⟨m, hmnodup, hmext, hmsat, hmupd⟩
          refine ⟨m, hmnodup, ?_, ?_, ?_⟩
          · intro k v hv
            exact hmext k v (hext2 k v hv)
          · exact sat_unwind (hmext _ _ hlook2) hmsat
          · rw [hmupd]
        · rw [fuel_case_branch h1 h2 h3] at h
          have hmem := branchLit_mem (h := st.h_lvl) (get_lits_nonempty h1 h2)
          rcases hL : dpllFuel n
              (substitute (branchLit st.h_lvl (housekeep kb)).name true (housekeep kb))
              (dictInsert model (branchLit st.h_lvl (housekeep kb)).name true)
              { st with trace := st.trace ++ [branchLit st.h_lvl (housekeep kb)] }
            with _ | ⟨bL, stA⟩
          · rw [hL] at h
            simp at h
          · rw [hL] at h
            cases bL
            · have h5 : dpllFuel n
                  (substitute (branchLit st.h_lvl (housekeep kb)).name false (housekeep kb))
                  (dictInsert model (branchLit st.h_lvl (housekeep kb)).name false) stA =
                    some (true, st2) := h
              rcases branch_step hmem hdisj hnodup false with ⟨hdisj2, hnodup2, hlook2, hext2⟩
              rcases ih h5 hdisj2 hnodup2 with ⟨m, hmnodup, hmext, hmsat, hmupd⟩
              have hstA := fuel_model_false hL
              refine ⟨m, hmnodup, ?_, ?_, ?_⟩
              · intro k v hv
                exact hmext k v (hext2 k v hv)
              · exact sat_unwind (hmext _ _ hlook2) hmsat
              · rw [hmupd, hstA]
            · injection h with h4
              injection h4 with h5 h6
              subst h6
              rcases branch_step hmem hdisj hnodup true with ⟨hdisj2, hnodup2, hlook2, hext2⟩
              rcases ih hL hdisj2 hnodup2 with ⟨m, hmnodup, hmext, hmsat, hmupd⟩
              refine ⟨m, hmnodup, ?_, ?_, ?_⟩
              · intro k v hv
                exact hmext k v (hext2 k v hv)
              · exact sat_unwind (hmext _ _ hlook2) hmsat
              · rw [hmupd]

/-! ## Heuristic-level congruence

The heuristic level is consulted only through the three tests `h_lvl >= 2`,
`h_lvl == 3` and `h_lvl >= 1`; two levels agreeing on all three produce
identical verdicts, models and traces. -/

theorem candidates_congr {g1 g2 : Int} (h : decide (g1 = 3) = decide (g2 = 3)) (kb : LKB) :
    candidates g1 kb = candidates g2 kb := by
  unfold candidates
  by_cases h13 : g1 = 3
  · have h23 : g2 = 3 := of_decide_eq_true (h ▸ decide_eq_true h13)
    rw [if_pos h13, if_pos h23]
  · have h23 : ¬ g2 = 3 := of_decide_eq_false (h ▸ decide_eq_false h13)
    rw [if_neg h13, if_neg h23]

theorem branchLit_congr {g1 g2 : Int} (h : decide (1 ≤ g1) = decide (1 ≤ g2)) (kb : LKB) :
    branchLit g1 kb = branchLit g2 kb := by
  unfold branchLit
  by_cases h11 : 1 ≤ g1
  · have h21 : 1 ≤ g2 := of_decide_eq_true (h ▸ decide_eq_true h11)
    rw [if_pos h11, if_pos h21]
  · have h21 : ¬ 1 ≤ g2 := of_decide_eq_false (h ▸ decide_eq_false h11)
    rw [if_neg h11, if_neg h21]

/-- Correspondence between two runs that differ only in the stored heuristic
level: equal verdicts, equal model accumulators, equal traces. -/
def outRel : Option (Bool × Stuff) → Option (Bool × Stuff) → Prop
  | none, none => True
  | some (b1, s1), some (b2, s2) => b1 = b2 ∧ s1.model = s2.model ∧ s1.trace = s2.trace
  | _, _ => False

theorem fuel_congr {n : Nat} :
    ∀ (kb : KB) (model mo : Model) (tr : List Literal) (g1 g2 : Int),
      decide (2 ≤ g1) = decide (2 ≤ g2) → decide (g1 = 3) = decide (g2 = 3) →
      decide (1 ≤ g1) = decide (1 ≤ g2) →
      outRel (dpllFuel n kb model ⟨mo, tr, g1⟩) (dpllFuel n kb model ⟨mo, tr, g2⟩) := by
  induction n with
  | zero => intro kb model mo tr g1 g2 _ _ _; trivial
  | succ n ih =>
    intro kb model mo tr g1 g2 e2 e3 e1
    by_cases h1 : housekeep kb = []
    · rw [fuel_case_sat h1, fuel_case_sat h1]
      exact ⟨rfl, rfl, rfl⟩
    · by_cases h2 : (housekeep kb).any (fun c => decide (c = ∅)) = true
      · rw [fuel_case_unsat h1 h2, fuel_case_unsat h1 h2]
        exact ⟨rfl, rfl, rfl⟩
      · have hcand : candidates g1 (housekeep kb) = candidates g2 (housekeep kb) :=
          candidates_congr e3 _
        by_cases h3 : 2 ≤ g1 ∧ candidates g1 (housekeep kb) ≠ []
        · have h3b : 2 ≤ g2 ∧ candidates g2 (housekeep kb) ≠ [] :=
            ⟨of_decide_eq_true (e2 ▸ decide_eq_true h3.1), hcand ▸ h3.2⟩
          rw [fuel_case_free h1 h2 h3.1 h3.2, fuel_case_free h1 h2 h3b.1 h3b.2]
          have hsub : freeSub g1 (housekeep kb) = freeSub g2 (housekeep kb) := by
            unfold freeSub
            rw [hcand]
          rw [hsub]
          exact ih _ _ _ _ g1 g2 e2 e3 e1
        · have h3b : ¬ (2 ≤ g2 ∧ candidates g2 (housekeep kb) ≠ []) := by
            intro hq
            exact h3 ⟨of_decide_eq_true (e2.symm ▸ decide_eq_true hq.1), hcand.symm ▸ hq.2⟩
          rw [fuel_case_branch h1 h2 h3, fuel_case_branch h1 h2 h3b]
          have hbr : branchLit g1 (housekeep kb) = branchLit g2 (housekeep kb) :=
            branchLit_congr e1 _
          rw [hbr]
          have hrel := ih (substitute (branchLit g2 (housekeep kb)).name true (housekeep kb))
            (dictInsert model (branchLit g2 (housekeep kb)).name true)
            mo (tr ++ [branchLit g2 (housekeep kb)]) g1 g2 e2 e3 e1
          rcases hO1 : dpllFuel n
              (substitute (branchLit g2 (housekeep kb)).name true (housekeep kb))
              (dictInsert model (branchLit g2 (housekeep kb)).name true)
              ⟨mo, tr ++ [branchLit g2 (housekeep kb)], g1⟩ with _ | ⟨b1, s1⟩ <;>
            rcases hO2 : dpllFuel n
              (substitute (branchLit g2 (housekeep kb)).name true (housekeep kb))
              (dictInsert model (branchLit g2 (housekeep kb)).name true)
              ⟨mo, tr ++ [branchLit g2 (housekeep kb)], g2⟩ with _ | ⟨b2, s2⟩
          · trivial
          · rw [hO1, hO2] at hrel
            exact hrel.elim
          · rw [hO1, hO2] at hrel
            exact hrel.elim
          · rw [hO1, hO2] at hrel
            obtain ⟨hb, hm, ht⟩ := hrel
            subst hb
            cases b1
            · show outRel
                (dpllFuel n
                  (substitute (branchLit g2 (housekeep kb)).name false (housekeep kb))
                  (dictInsert model (branchLit g2 (housekeep kb)).name false) s1)
                (dpllFuel n
                  (substitute (branchLit g2 (housekeep kb)).name false (housekeep kb))
                  (dictInsert model (branchLit g2 (housekeep kb)).name false) s2)
              have hh1b : s1.h_lvl = g1 := fuel_h_lvl hO1
              have hh2b : s2.h_lvl = g2 := fuel_h_lvl hO2
              have hs1 : s1 = ⟨s1.model, s1.trace, g1⟩ := by rw [← hh1b]
              have hs2 : s2 = ⟨s2.model, s2.trace, g2⟩ := by rw [← hh2b]
              rw [hs1, hs2, ← hm, ← ht]
              exact ih _ _ _ _ g1 g2 e2 e3 e1
            · exact ⟨rfl, hm, ht⟩

/-! ## Top-level bridge -/

/-- Running the search through the fuel-indexed recursion, with fuel one more
than the number of distinct variables (always enough, by `dpllFuel_eq_dpll`). -/
def runFuel (kb : LKB) (h : Int) : Option (Bool × Stuff) :=
  dpllFuel ((eVars (inject kb)).card + 1) (inject kb) [] ⟨[], [], h⟩

theorem runFuel_eq (kb : LKB) (h : Int) :
    runFuel kb h = some (_dpll (inject kb) [] ⟨[], [], h⟩) :=
  dpllFuel_eq_dpll _ _ _ _ (Nat.lt_succ_self _)

theorem dpll_satisfiable_eq (kb : LKB) (h : Int) {b : Bool} {s : Stuff}
    (hr : runFuel kb h = some (b, s)) :
    dpll_satisfiable kb h = (b, modelOut s.model, s.trace) := by
  have h2 := runFuel_eq kb h
  rw [hr] at h2
  have h3 := Option.some.inj h2
  simp only [dpll_satisfiable]
  rw [← h3]

/-- A total assignment of booleans to variable names satisfies a KB when every
clause contains a literal whose assigned value equals its sign. -/
def satAssign (f : String → Bool) (kb : LKB) : Prop :=
  ∀ c ∈ kb, ∃ l ∈ c, f l.name = l.sign

/-- The verdict of `dpll_satisfiable` is `True` exactly when a satisfying
assignment exists. -/
theorem verdict_true_iff (kb : LKB) (h : Int) :
    (dpll_satisfiable kb h).1 = true ↔ ∃ f : String → Bool, satAssign f kb := by
  rcases hr : runFuel kb h with _ | ⟨b, s⟩
  · have h2 := runFuel_eq kb h
    rw [hr] at h2
    exact absurd h2 (by simp)
  · rw [dpll_satisfiable_eq kb h hr]
    show b = true ↔ _
    constructor
    · intro hb
      subst hb
      rcases fuel_sound hr (by simp) (by simp) with ⟨m, -, -, hmsat, -⟩
      refine ⟨fun k => (lookup m k).getD false, ?_⟩
      intro c hc
      rcases satKB_inject_iff.mp hmsat c hc with ⟨l, hl, hPl⟩
      refine ⟨l, hl, ?_⟩
      have hPl2 : lookup m l.name = some l.sign := hPl
      show (lookup m l.name).getD false = l.sign
      rw [hPl2]
      rfl
    · rintro ⟨f, hf⟩
      cases b
      · exact absurd (fuel_unsat hr f (satKB_inject_iff.mpr hf)) (fun hc => hc)
      · rfl

theorem bool_eq_of_iff {a b : Bool} (h : (a = true) ↔ (b = true)) : a = b := by
  cases a <;> cases b <;> simp_all

theorem verdict_eq (kb : LKB) (g1 g2 : Int) :
    (dpll_satisfiable kb g1).1 = (dpll_satisfiable kb g2).1 :=
  bool_eq_of_iff ((verdict_true_iff kb g1).trans (verdict_true_iff kb g2).symm)

/-- Two heuristic levels agreeing on the three tests `>= 2`, `== 3`, `>= 1`
give identical results of `dpll_satisfiable`. -/
theorem dpll_satisfiable_congr (kb : LKB) (g1 g2 : Int)
    (e2 : decide (2 ≤ g1) = decide (2 ≤ g2)) (e3 : decide (g1 = 3) = decide (g2 = 3))
    (e1 : decide (1 ≤ g1) = decide (1 ≤ g2)) :
    dpll_satisfiable kb g1 = dpll_satisfiable kb g2 := by
  have hrel := fuel_congr (n := (eVars (inject kb)).card + 1) (inject kb) [] [] [] g1 g2 e2 e3 e1
  have hr1 := runFuel_eq kb g1
  have hr2 := runFuel_eq kb g2
  unfold runFuel at hr1 hr2
  rw [hr1, hr2] at hrel
  have hrel2 :
      ((_dpll (inject kb) [] ⟨[], [], g1⟩).1 = (_dpll (inject kb) [] ⟨[], [], g2⟩).1) ∧
      ((_dpll (inject kb) [] ⟨[], [], g1⟩).2.model =
        (_dpll (inject kb) [] ⟨[], [], g2⟩).2.model) ∧
      ((_dpll (inject kb) [] ⟨[], [], g1⟩).2.trace =
        (_dpll (inject kb) [] ⟨[], [], g2⟩).2.trace) := hrel
  obtain ⟨hb, hm, ht⟩ := hrel2
  rw [dpll_satisfiable_eq kb g1 (runFuel_eq kb g1),
    dpll_satisfiable_eq kb g2 (runFuel_eq kb g2)]
  rw [hb, hm, ht]

/-- If the search fails, the driver returns the empty model. -/
theorem dpll_model_nil {kb : LKB} {h : Int} {m : PyDict Literal Bool} {t : List Literal}
    (hret : dpll_satisfiable kb h = (false, m, t)) : m = [] := by
  rcases hr : runFuel kb h with _ | ⟨b, s⟩
  · have h2 := runFuel_eq kb h
    rw [hr] at h2
    exact absurd h2 (by simp)
  · have hd := dpll_satisfiable_eq kb h hr
    rw [hret] at hd
    injection hd with hd1 hd2
    injection hd2 with hd2 hd3
    have hb : b = false := hd1.symm
    subst hb
    have hsm := fuel_model_false hr
    rw [hd2, hsm]
    rfl

/-! ## Concrete fixtures for the example scenarios -/

def litA : Literal := ⟨"A", true⟩

def litB : Literal := ⟨"B", true⟩

def litC : Literal := ⟨"C", true⟩

def litD : Literal := ⟨"D", true⟩

def negA : Literal := ⟨"A", false⟩

def negB : Literal := ⟨"B", false⟩

/-! ## The claims -/

/-- C1: Soundness of a satisfying result — for every input KB and heuristic
level, if `dpll_satisfiable` returns `satisfiable = True` with model `m`,
then every clause of the original KB contains a literal whose name is
assigned in `m` (keyed by the positive literal of that name) with a value
equal to that literal's sign. -/
theorem dpll_satisfiable_sound (kb : LKB) (h : Int) (m : PyDict Literal Bool)
    (t : List Literal) (hret : dpll_satisfiable kb h = (true, m, t)) :
    ∀ c ∈ kb, ∃ l ∈ c, lookup m ⟨l.name, true⟩ = some l.sign := by
  rcases hr : runFuel kb h with _ | ⟨b, s⟩
  · have h2 := runFuel_eq kb h
    rw [hr] at h2
    exact absurd h2 (by simp)
  · have hd := dpll_satisfiable_eq kb h hr
    rw [hret] at hd
    injection hd with hd1 hd2
    injection hd2 with hd2 hd3
    have hb : b = true := hd1.symm
    subst hb
    rcases fuel_sound hr (by simp) (by simp) with ⟨mm, hmnodup, -, hmsat, hmupd⟩
    have hsm : s.model = mm := by
      rw [hmupd]
      exact pyUpdate_eq_append (by simpa using hmnodup)
    have hm2 : m = mm.map (fun p => ((⟨p.1, true⟩ : Literal), p.2)) := by
      rw [hd2, hsm, modelOut_of_nodup hmnodup]
    intro c hc
    rcases satKB_inject_iff.mp hmsat c hc with ⟨l, hl, hPl⟩
    have hPl2 : lookup mm l.name = some l.sign := hPl
    refine ⟨l, hl, ?_⟩
    rw [hm2, lookup_map_posLit]
    exact hPl2

theorem dpll_satisfiable_sound_witness :
    ∃ l ∈ ({litA} : Clause), lookup [(litA, true)] (⟨l.name, true⟩ : Literal) = some l.sign :=
  dpll_satisfiable_sound [{litA}] 0 [(litA, true)] [litA]
    (dpll_satisfiable_eq [{litA}] 0
      (show runFuel [{litA}] 0 = some (true, ⟨[("A", true)], [litA], 0⟩) by decide))
    {litA} (by decide)

/-- C2: Completeness on unsatisfiable inputs — for every input KB and
heuristic level, if `dpll_satisfiable` returns `satisfiable = False`, then no
total assignment of booleans to the variables makes at least one literal true
in every clause of the KB. -/
theorem dpll_satisfiable_complete_unsat (kb : LKB) (h : Int) (m : PyDict Literal Bool)
    (t : List Literal) (hret : dpll_satisfiable kb h = (false, m, t)) :
    ∀ f : String → Bool, ¬ satAssign f kb := by
  intro f hf
  have hv := (verdict_true_iff kb h).mpr ⟨f, hf⟩
  rw [hret] at hv
  exact absurd hv (by simp)

theorem dpll_satisfiable_complete_unsat_witness :
    ¬ satAssign (fun _ => true) [{litA}, {negA}] :=
  dpll_satisfiable_complete_unsat [{litA}, {negA}] 0 [] [negA]
    (dpll_satisfiable_eq [{litA}, {negA}] 0
      (show runFuel [{litA}, {negA}] 0 = some (false, ⟨[], [negA], 0⟩) by decide))
    (fun _ => true)

/-- C3: Heuristic invariance of the verdict — for every fixed input KB, the
`satisfiable` boolean of `dpll_satisfiable` is the same at heuristic levels
0, 1, 2 and 3. -/
theorem verdict_heuristic_invariant (kb : LKB) :
    (dpll_satisfiable kb 0).1 = (dpll_satisfiable kb 1).1 ∧
    (dpll_satisfiable kb 1).1 = (dpll_satisfiable kb 2).1 ∧
    (dpll_satisfiable kb 2).1 = (dpll_satisfiable kb 3).1 :=
  ⟨verdict_eq kb 0 1, verdict_eq kb 1 2, verdict_eq kb 2 3⟩

/-- C4 (counterexample): the claim "every integer h ≥ 3 behaves exactly like
level 3" fails at h = 4: the `h_lvl == 3` test is false there, so the
degree re-ranking of free-simplification candidates is skipped and the trace
(and model order) differ from level 3 on this KB. -/
theorem heuristic_level_clamping_counterexample :
    dpll_satisfiable [{litA}, {litB, litC}, {litB, litD}] 4 ≠
      dpll_satisfiable [{litA}, {litB, litC}, {litB, litD}] 3 := by
  rw [dpll_satisfiable_eq [{litA}, {litB, litC}, {litB, litD}] 4
      (show runFuel [{litA}, {litB, litC}, {litB, litD}] 4 =
        some (true, ⟨[("A", true), ("B", true)], [litA, litB], 4⟩) by decide),
    dpll_satisfiable_eq [{litA}, {litB, litC}, {litB, litD}] 3
      (show runFuel [{litA}, {litB, litC}, {litB, litD}] 3 =
        some (true, ⟨[("B", true), ("A", true)], [litB, litA], 3⟩) by decide)]
  decide

/-- C4 (amended): every negative heuristic level behaves exactly like level 0
(all three level tests fail); every level h ≥ 4 behaves exactly like level 2
(the `>= 2` and `>= 1` tests hold but the `== 3` test fails, so degree
re-ranking of free candidates is off), and its satisfiability verdict still
agrees with level 3's. -/
theorem heuristic_level_clamping (kb : LKB) (h : Int) :
    (h < 0 → dpll_satisfiable kb h = dpll_satisfiable kb 0) ∧
    (4 ≤ h → dpll_satisfiable kb h = dpll_satisfiable kb 2 ∧
      (dpll_satisfiable kb h).1 = (dpll_satisfiable kb 3).1) := by
  constructor
  · intro hneg
    apply dpll_satisfiable_congr
    · rw [decide_eq_false (show ¬ (2:Int) ≤ h by omega)]
      decide
    · rw [decide_eq_false (show ¬ h = 3 by omega)]
      decide
    · rw [decide_eq_false (show ¬ (1:Int) ≤ h by omega)]
      decide
  · intro hge
    refine ⟨?_, verdict_eq kb h 3⟩
    apply dpll_satisfiable_congr
    · rw [decide_eq_true (show (2:Int) ≤ h by omega)]
      decide
    · rw [decide_eq_false (show ¬ h = 3 by omega)]
      decide
    · rw [decide_eq_true (show (1:Int) ≤ h by omega)]
      decide

theorem heuristic_level_clamping_witness :
    dpll_satisfiable [{litA}] (-1) = dpll_satisfiable [{litA}] 0 ∧
      dpll_satisfiable [{litA}] 5 = dpll_satisfiable [{litA}] 2 :=
  ⟨(heuristic_level_clamping [{litA}] (-1)).1 (by decide),
    ((heuristic_level_clamping [{litA}] 5).2 (by decide)).1⟩

/-- C5: Substitute semantics and shape — `substitute(name, value, kb)` keeps
exactly the same number of clauses in the same positions; in each clause,
every literal with a different name is kept unchanged, every literal with the
given name is replaced by the boolean `literal.sign == value` (so no literal
of that name remains), and no clause is dropped. -/
theorem substitute_spec (name : String) (value : Bool) (kb : LKB) :
    (substitute name value kb).length = kb.length ∧
    List.Forall₂ (fun (c2 : EClause) (c : Clause) =>
      (∀ l : Literal, l.name ≠ name → (Entry.lit l ∈ c2 ↔ l ∈ c)) ∧
      (∀ l : Literal, l.name = name → Entry.lit l ∉ c2) ∧
      (∀ b : Bool, Entry.bval b ∈ c2 ↔ ∃ l ∈ c, l.name = name ∧ (l.sign == value) = b))
      (substitute name value kb) kb := by
  constructor
  · exact List.length_map _ _
  · show List.Forall₂ _ (kb.map _) kb
    induction kb with
    | nil => exact List.Forall₂.nil
    | cons c cs ih =>
      refine List.Forall₂.cons ⟨?_, ?_, ?_⟩ ih
      · intro l hl
        constructor
        · intro hmem
          rcases Finset.mem_image.mp hmem with ⟨x, hx, hfx⟩
          by_cases hxn : x.name ≠ name
          · rw [if_pos hxn] at hfx
            simp only [Entry.lit.injEq] at hfx
            exact hfx ▸ hx
          · rw [if_neg hxn] at hfx
            simp at hfx
        · intro hmem
          exact Finset.mem_image.mpr ⟨l, hmem, by rw [if_pos hl]⟩
      · intro l hl hmem
        rcases Finset.mem_image.mp hmem with ⟨x, hx, hfx⟩
        by_cases hxn : x.name ≠ name
        · rw [if_pos hxn] at hfx
          simp only [Entry.lit.injEq] at hfx
          exact hxn ((congrArg Literal.name hfx).trans hl)
        · rw [if_neg hxn] at hfx
          simp at hfx
      · intro b
        constructor
        · intro hmem
          rcases Finset.mem_image.mp hmem with ⟨x, hx, hfx⟩
          by_cases hxn : x.name ≠ name
          · rw [if_pos hxn] at hfx
            simp at hfx
          · rw [if_neg hxn] at hfx
            push_neg at hxn
            simp only [Entry.bval.injEq] at hfx
            exact ⟨x, hx, hxn, hfx⟩
        · rintro ⟨l, hl, hln, hb⟩
          refine Finset.mem_image.mpr ⟨l, hl, ?_⟩
          rw [if_neg (by simp [hln]), hb]

theorem substitute_spec_witness :
    (substitute ("A") true [{litA, negA, litB}]).length = [({litA, negA, litB} : Clause)].length ∧
      Entry.bval true ∈ (substitute ("A") true [{litA, negA, litB}]).headD ∅ :=
  ⟨(substitute_spec ("A") true [{litA, negA, litB}]).1, by decide⟩

/-- C6: Free simplification at heuristic level ≥ 2 — on a non-terminal KB
the engine collects the pure/unit candidates (alphabetically sorted,
re-sorted stably by descending degree only at level 3), and when one exists
it appends the first to the trace, substitutes its satisfying polarity,
extends the model and recurses exactly once without branching; in particular
for KB = `[{A,B},{A,-B}]` at any level ≥ 2 the pure literal A is the first
(and only) trace entry, assigned True, without branching on B. -/
theorem free_simplification :
    (∀ (kb : KB) (model : Model) (st : Stuff),
      2 ≤ st.h_lvl → ¬ housekeep kb = [] →
      ¬ (housekeep kb).any (fun c => decide (c = ∅)) = true →
      candidates st.h_lvl (housekeep kb) ≠ [] →
      _dpll kb model st =
        _dpll
          (substitute (freeSub st.h_lvl (housekeep kb)).name
            (freeSub st.h_lvl (housekeep kb)).sign (housekeep kb))
          (dictInsert model (freeSub st.h_lvl (housekeep kb)).name
            (freeSub st.h_lvl (housekeep kb)).sign)
          { st with trace := st.trace ++ [freeSub st.h_lvl (housekeep kb)] }) ∧
    (∀ h : Int, 2 ≤ h →
      dpll_satisfiable [{litA, litB}, {litA, negB}] h = (true, [(litA, true)], [litA])) := by
  constructor
  · intro kb model st hh h1 h2 h4
    exact dpll_case_free h1 h2 hh h4
  · intro h hh
    have h234 : h = 2 ∨ h = 3 ∨ 4 ≤ h := by omega
    rcases h234 with h2 | h3 | h4
    · subst h2
      rw [dpll_satisfiable_eq [{litA, litB}, {litA, negB}] 2
        (show runFuel [{litA, litB}, {litA, negB}] 2 =
          some (true, ⟨[("A", true)], [litA], 2⟩) by decide)]
      rfl
    · subst h3
      rw [dpll_satisfiable_eq [{litA, litB}, {litA, negB}] 3
        (show runFuel [{litA, litB}, {litA, negB}] 3 =
          some (true, ⟨[("A", true)], [litA], 3⟩) by decide)]
      rfl
    · have hcg := dpll_satisfiable_congr [{litA, litB}, {litA, negB}] h 2
        (by rw [decide_eq_true (show (2:Int) ≤ h by omega)]; decide)
        (by rw [decide_eq_false (show ¬ h = 3 by omega)]; decide)
        (by rw [decide_eq_true (show (1:Int) ≤ h by omega)]; decide)
      rw [hcg]
      rw [dpll_satisfiable_eq [{litA, litB}, {litA, negB}] 2
        (show runFuel [{litA, litB}, {litA, negB}] 2 =
          some (true, ⟨[("A", true)], [litA], 2⟩) by decide)]
      rfl

theorem free_simplification_witness :
    dpll_satisfiable [{litA, litB}, {litA, negB}] 2 = (true, [(litA, true)], [litA]) :=
  free_simplification.2 2 (by decide)

/-- C7: Termination and recursion-depth bound — `_dpll` is a total function
(defined by well-founded recursion on the number of distinct variable names),
and fuel equal to the number of distinct variable names of the KB plus one
(the root call) suffices for the fuel-indexed recursion to complete and agree
with it: the recursion depth is bounded by the number of distinct variables,
each decision level eliminating one variable. -/
theorem dpll_terminates (kb : KB) (model : Model) (st : Stuff) :
    dpllFuel ((eVars kb).card + 1) kb model st = some (_dpll kb model st) :=
  dpllFuel_eq_dpll _ _ _ _ (Nat.lt_succ_self _)

/-- C8: Empty-KB success case — `dpll_satisfiable([], h)` returns exactly
`(True, {}, [])` for every heuristic level. -/
theorem dpll_empty_kb (h : Int) : dpll_satisfiable [] h = (true, [], []) := by
  have hr : runFuel [] h = some (true, ⟨[], [], h⟩) := by
    unfold runFuel
    have hc : (eVars (inject ([] : LKB))).card + 1 = 1 := by decide
    rw [hc]
    rw [fuel_case_sat (show housekeep (inject ([] : LKB)) = [] from rfl)]
    rfl
  rw [dpll_satisfiable_eq [] h hr]
  rfl

/-- C9: Empty-clause failure case — `dpll_satisfiable([set()], h)` returns
`satisfiable = False` immediately with an empty trace (and empty model) for
every heuristic level: no branching or free-simplification step runs. -/
theorem dpll_empty_clause (h : Int) : dpll_satisfiable [∅] h = (false, [], []) := by
  have hr : runFuel [∅] h = some (false, ⟨[], [], h⟩) := by
    unfold runFuel
    have hc : (eVars (inject ([∅] : LKB))).card + 1 = 1 := by decide
    rw [hc]
    rw [fuel_case_unsat (by decide) (by decide)]
  rw [dpll_satisfiable_eq [∅] h hr]
  rfl

/-- C10: Empty model on failure — whenever `dpll_satisfiable` returns
`satisfiable = False`, the returned model is the empty mapping: the shared
model accumulator is written only when a branch reaches the success state. -/
theorem dpll_model_empty_on_failure (kb : LKB) (h : Int) (m : PyDict Literal Bool)
    (t : List Literal) (hret : dpll_satisfiable kb h = (false, m, t)) : m = [] :=
  dpll_model_nil hret

theorem dpll_model_empty_on_failure_witness : ([] : PyDict Literal Bool) = [] :=
  dpll_model_empty_on_failure [{litA}, {negA}] 0 [] [negA]
    (dpll_satisfiable_eq [{litA}, {negA}] 0
      (show runFuel [{litA}, {negA}] 0 = some (false, ⟨[], [negA], 0⟩) by decide))

end DPLL
